import Mathlib

/-!
Shallow embedding of the symbolic-algebra core of parallelGBC:
the interned term monoid (src/include/Term.H), polynomials
(src/include/Polynomial.H) and the F4 simplify table
(src/include/F4Simplify.H).

A term is an exponent vector of `N` naturals; interning makes handle
identity coincide with vector equality, so a term handle is modelled by
its exponent vector (for the one claim that distinguishes pointer
identity from structural equality, a handle carries an explicit
allocation id).  Machine `size_t` arithmetic in the hash functions is
modelled on `Nat` with explicit reduction modulo `2 ^ 64`.
-/

namespace parallelGBC

/-- Word size of `size_t`: all hash arithmetic is modulo `2 ^ 64`. -/
def wordW : Nat := 2 ^ 64

/-- Exponent vector of a term (`indets` array of a `TermInstance`). -/
abbrev TermV := List Nat

/-- Total degree of a term: `TermInstance::setDegree` sums the exponents. -/
def termDeg (t : TermV) : Nat := t.sum

/-- The additive constant `0x9e3779b9` used by `TermInstance::setHash`. -/
def hashK : Nat := 0x9e3779b9

/-- One iteration of the loop in `TermInstance::setHash`:
`hash ^= indets[i] + 0x9e3779b9 + (hash << 6) + (hash >> 2)`,
with every `size_t` intermediate reduced modulo `2 ^ 64`. -/
def hashStep (h e : Nat) : Nat :=
  h ^^^ ((e + hashK + (h <<< 6) % wordW + h >>> 2) % wordW)

/-- The stored hash of a term: `TermInstance::setHash` starts from `0` and
folds `hashStep` over the exponent vector. -/
def setHash (t : TermV) : Nat := t.foldl hashStep 0

/-- Modelled from the spec: the degree-packed hash it fixes in §4.2
("start with exponent[0]; for each subsequent exponent e, shift left by
D bits and add e").  This variant is not the one implemented by
`TermInstance::setHash` in src/include/Term.H. -/
def specPackedHash (D : Nat) : TermV → Nat
  | [] => 0
  | e :: es => es.foldl (fun h x => (h <<< D) + x) e

/-- A `TermInstance` as interned by the monoid: the exponent vector
together with the cached hash and degree set by the interning
constructor (`setHash` / `setDegree`). -/
structure TermInstance where
  indets : TermV
  hash : Nat
  degree : Nat
  deriving Repr, DecidableEq

/-- The interning constructor `TermInstance(TMonoid*, const degreeType*)`:
stores the exponent vector and caches hash and degree. -/
def mkTermInstance (v : TermV) : TermInstance :=
  ⟨v, setHash v, termDeg v⟩

/-- The one term of a monoid with `N` indeterminates: all exponents zero. -/
def oneV (N : Nat) : TermV := List.replicate N 0

/-- The multiplication constructor
`TermInstance(TMonoid*, const degreeType* a, const degreeType* b)`:
componentwise exponent addition. -/
def mulV (a b : TermV) : TermV := List.zipWith (· + ·) a b

/-- `TermInstance::mul`: if the other term has degree `0` return `this`
itself (the identical handle), otherwise intern the componentwise sum. -/
def mulT (a b : TermV) : TermV :=
  if termDeg b = 0 then a else mulV a b

/-- `TermInstance::div`: componentwise exponent subtraction (no underflow
check; callers guarantee divisibility), then intern the result. -/
def divT (a b : TermV) : TermV := List.zipWith (· - ·) a b

/-- `TermInstance::divX`: copy the exponent vector and decrement the
exponent of variable `i`, then intern. -/
def divX (t : TermV) (i : Nat) : TermV := t.set i (t.getD i 0 - 1)

/-- Modelled from the spec: `Term::isDivisibleBy` is declared in
src/include/Term.H but implemented in Term.C, which is not in src/;
§4.3 defines it as "true iff for every i, a[i] ≥ b[i]". -/
def divisibleBy (a b : TermV) : Bool :=
  (List.zip a b).all fun p => decide (p.2 ≤ p.1)

/-- `Term::divAllX`: loop over all variable indices, and for each index
with a strictly positive exponent push the quotient `divX i`. -/
def divAllX (t : TermV) : List TermV :=
  (List.range t.length).foldl
    (fun acc i => if 0 < t.getD i 0 then acc ++ [divX t i] else acc) []

/-- A polynomial (src/include/Polynomial.H): parallel arrays of
coefficients and term handles, plus the sugar degree.  `coeffType` is a
machine integer, modelled as `Int`. -/
structure Polynomial where
  coeffs : List Int
  terms : List TermV
  sugarDegree : Nat
  deriving Repr, DecidableEq

/-- `Polynomial::isZero`: `coeffs.size() < 1 || coeffs[0] == 0`. -/
def Polynomial.isZero (P : Polynomial) : Bool :=
  decide (P.coeffs.length < 1) || P.coeffs.getD 0 0 == 0

/-- `Polynomial::LC`: the coefficient at position `0`. -/
def Polynomial.LC (P : Polynomial) : Int := P.coeffs.getD 0 0

/-- `Polynomial::operator==`: `false` if the sizes differ, otherwise
compare, at every position, the term handles and the coefficients. -/
def Polynomial.beq (P Q : Polynomial) : Bool :=
  if P.coeffs.length ≠ Q.coeffs.length then false
  else (List.range P.terms.length).all fun i =>
    P.terms.getD i [] == Q.terms.getD i [] && P.coeffs.getD i 0 == Q.coeffs.getD i 0

/-- One monomial's contribution to `Polynomial::hash`:
`coeffs[i] + hasher(terms[i])` in `size_t` arithmetic (a negative
coefficient wraps modulo `2 ^ 64` as in the two's-complement
conversion). -/
def monomialHash (c : Int) (t : TermV) : Nat :=
  ((c.emod (2 ^ 64)).toNat + setHash t) % wordW

/-- `Polynomial::hash`: fold `hash ^= coeffs[i] + hasher(terms[i])` over
the support. -/
def Polynomial.hash (P : Polynomial) : Nat :=
  (P.coeffs.zip P.terms).foldl (fun h m => h ^^^ monomialHash m.1 m.2) 0

/-- Modelled from the spec: `Polynomial::mul(t)` is declared in
src/include/Polynomial.H but implemented in Polynomial.C, which is not
in src/; its contract is "multiply all terms of the polynomial with the
given term t". -/
def Polynomial.mulTerm (P : Polynomial) (t : TermV) : Polynomial :=
  ⟨P.coeffs, P.terms.map (fun s => mulT s t), P.sugarDegree⟩

/-- Modelled from the spec: the coefficient-field inverse (§4.1), by
modular exponentiation `a ^ (p - 2) mod p`; `CoeffField.H` is not in
src/. -/
def fieldInv (p : Nat) (a : Int) : Int := (a ^ (p - 2)) % (p : Int)

/-- Modelled from the spec: `Polynomial::bringIn` is declared in
src/include/Polynomial.H but implemented in Polynomial.C, which is not
in src/; §4.5 says it reduces every coefficient to the field's canonical
range `[0, p)`. -/
def Polynomial.bringIn (p : Nat) (P : Polynomial) : Polynomial :=
  ⟨P.coeffs.map (fun c => c % (p : Int)), P.terms, P.sugarDegree⟩

/-- Modelled from the spec: `Polynomial::normalize` is declared in
src/include/Polynomial.H but implemented in Polynomial.C, which is not
in src/; §4.5 says "if non-zero, multiply the whole support by the
inverse of the leading coefficient in F". -/
def Polynomial.normalize (p : Nat) (P : Polynomial) : Polynomial :=
  if P.isZero then P
  else ⟨P.coeffs.map (fun c => (c * fieldInv p P.LC) % (p : Int)), P.terms, P.sugarDegree⟩

/-- Two polynomials are equal up to a non-zero scalar of the field
`Z/pZ`: same term sequence, and the coefficient sequences are pointwise
proportional modulo `p` by a common scalar that is non-zero mod `p`. -/
def scalarEquiv (p : Nat) (P Q : Polynomial) : Prop :=
  ∃ c : Int, ¬ (p : Int) ∣ c ∧ P.terms = Q.terms ∧
    P.coeffs.length = Q.coeffs.length ∧
    ∀ i < P.coeffs.length,
      P.coeffs.getD i 0 % (p : Int) = (c * Q.coeffs.getD i 0) % (p : Int)

/-- Modelled from the spec: the entry selection of `F4Simplify::search`
(declared in src/include/F4Simplify.H, implemented in F4Simplify.C which
is not in src/): among the inner table's entries whose key divides `t`,
pick one maximising the quotient `t / key` (here: of maximal quotient
degree). -/
def searchStep (t : TermV) (best : Option (TermV × Polynomial))
    (e : TermV × Polynomial) : Option (TermV × Polynomial) :=
  match best with
  | none => some e
  | some b => if termDeg (divT t b.1) < termDeg (divT t e.1) then some e else some b

/-- Modelled from the spec: the fold selecting the best entry among the
candidates whose key divides `t`. -/
def searchBest (t : TermV) (tbl : List (TermV × Polynomial)) :
    Option (TermV × Polynomial) :=
  (tbl.filter fun e => divisibleBy t e.1).foldl (searchStep t) none

/-- Modelled from the spec: `F4Simplify::search(t, f)` with the inner
table `tbl` already looked up for `f` (an absent outer entry is the
empty table): if a best divisor entry `(t', p)` exists, rewrite the pair
to `(t / t', p)`; otherwise leave both arguments unchanged. -/
def search (t : TermV) (f : Polynomial) (tbl : List (TermV × Polynomial)) :
    TermV × Polynomial :=
  match searchBest t tbl with
  | none => (t, f)
  | some e => (divT t e.1, e.2)

/-- A term handle as seen through the `Term` wrapper: the instance
pointer is modelled by an allocation id `ptr` together with the
pointed-to exponent vector; distinct ids model distinct `TermInstance`
allocations (e.g. an interning candidate next to a stored instance). -/
structure TermHandle where
  ptr : Nat
  indets : TermV
  deriving Repr, DecidableEq

/-- `TermInstance::equal`: compare the exponent vectors coordinate by
coordinate over the monoid's `N` indeterminates. -/
def termInstEqual (N : Nat) (a b : TermHandle) : Bool :=
  (List.range N).all fun i => a.indets.getD i 0 == b.indets.getD i 0

/-- `Term::equal`: short-circuit on instance identity, otherwise fall
back to the structural comparison `TermInstance::equal`. -/
def termEqual (N : Nat) (a b : TermHandle) : Bool :=
  if a.ptr == b.ptr then true else termInstEqual N a b

/-- `Term::operator==`: instance pointer identity only. -/
def termPtrEq (a b : TermHandle) : Bool := a.ptr == b.ptr

/-- Lists of equal length are equal iff they agree under `getD` at every
position below their length. -/
theorem getD_ext_iff {α : Type} (d : α) (l₁ : List α) :
    ∀ l₂ : List α, l₁.length = l₂.length →
      ((∀ i < l₁.length, l₁.getD i d = l₂.getD i d) ↔ l₁ = l₂) := by
  induction l₁ with
  | nil =>
    intro l₂ h
    cases l₂ with
    | nil => simp
    | cons b l₂ => simp at h
  | cons a l₁ ih =>
    intro l₂ h
    cases l₂ with
    | nil => simp at h
    | cons b l₂ =>
      simp only [List.length_cons, Nat.add_right_cancel_iff] at h
      constructor
      · intro hp
        have h0 := hp 0 (by simp)
        simp only [List.getD_cons_zero] at h0
        have ht : ∀ i < l₁.length, l₁.getD i d = l₂.getD i d := by
          intro i hi
          have := hp (i + 1) (by simp only [List.length_cons]; omega)
          simpa [List.getD_cons_succ] using this
        have := (ih l₂ h).mp ht
        rw [h0, this]
      · intro he i hi
        rw [he]

/-- Componentwise `(a + b) - b = a` on equal-length exponent vectors. -/
theorem zipWith_add_sub (a b : List Nat) (h : a.length = b.length) :
    List.zipWith (· - ·) (List.zipWith (· + ·) a b) b = a := by
  induction a generalizing b with
  | nil => simp
  | cons x a ih =>
    cases b with
    | nil => simp at h
    | cons y b =>
      simp only [List.zipWith_cons_cons, Nat.add_sub_cancel, List.cons.injEq, true_and]
      exact ih b (by simpa using h)

/-- Adding an all-zero vector is the identity. -/
theorem zipWith_add_zero (a b : List Nat) (h : a.length = b.length)
    (hb : ∀ e ∈ b, e = 0) : List.zipWith (· + ·) a b = a := by
  induction a generalizing b with
  | nil => simp
  | cons x a ih =>
    cases b with
    | nil => simp at h
    | cons y b =>
      have hy : y = 0 := hb y (by simp)
      simp only [List.zipWith_cons_cons, hy, Nat.add_zero, List.cons.injEq, true_and]
      exact ih b (by simpa using h) (fun e he => hb e (by simp [he]))

/-- Subtracting an all-zero vector is the identity. -/
theorem zipWith_sub_zero (a b : List Nat) (h : a.length = b.length)
    (hb : ∀ e ∈ b, e = 0) : List.zipWith (· - ·) a b = a := by
  induction a generalizing b with
  | nil => simp
  | cons x a ih =>
    cases b with
    | nil => simp at h
    | cons y b =>
      have hy : y = 0 := hb y (by simp)
      simp only [List.zipWith_cons_cons, hy, Nat.sub_zero, List.cons.injEq, true_and]
      exact ih b (by simpa using h) (fun e he => hb e (by simp [he]))

/-- Claim C4: for terms of the same monoid (equal-length exponent
vectors), multiplying by `b` and then dividing by `b` returns the same
interned handle as `a`: `div(mul(a, b), b) = a`. -/
theorem div_mul_cancel_term (a b : TermV) (h : a.length = b.length) :
    divT (mulT a b) b = a := by
  unfold mulT
  split
  next hb =>
    have hz : ∀ e ∈ b, e = 0 := by
      simp only [termDeg] at hb
      exact List.sum_eq_zero_iff.mp hb
    exact zipWith_sub_zero a b h hz
  next =>
    exact zipWith_add_sub a b h

/-- Witness for claim C4 at a concrete input. -/
theorem div_mul_cancel_term_witness :
    ([1, 2] : TermV).length = ([3, 4] : TermV).length ∧
      divT (mulT [1, 2] [3, 4]) [3, 4] = [1, 2] :=
  ⟨by decide, div_mul_cancel_term [1, 2] [3, 4] (by decide)⟩

/-- Claim C5: `mul(a, one)` returns `a` itself (`TermInstance::mul`
short-circuits when the other term has degree `0`, and the one term of
any monoid has all exponents zero). -/
theorem mul_one_identity (a : TermV) (N : Nat) : mulT a (oneV N) = a := by
  simp [mulT, oneV, termDeg, List.sum_replicate]

/-- Claim C1 counterexample: the hash stored by the interning
constructor is not the degree-packed encoding fixed by the spec, already
for the exponent vector `[1, 2]` with `D = 8`. -/
theorem setHash_ne_degree_packed :
    (mkTermInstance [1, 2]).hash ≠ specPackedHash 8 [1, 2] := by decide

/-- Claim C1 (amended): the stored hash of an interned term is the
xor-mix fold of `TermInstance::setHash`: the empty exponent vector
hashes to `0`, and appending an exponent `e` updates the hash `h` to
`h XOR ((e + 0x9e3779b9 + (h << 6) + (h >> 2)) mod 2^64)`. -/
theorem setHash_xor_mix_characterization :
    (mkTermInstance []).hash = 0 ∧
      ∀ (v : TermV) (e : Nat),
        (mkTermInstance (v ++ [e])).hash = hashStep (mkTermInstance v).hash e := by
  refine ⟨rfl, ?_⟩
  intro v e
  simp [mkTermInstance, setHash, List.foldl_append]

/-- Claim C2 counterexample: the polynomial `0 · x[1]` has a nonempty
support but `isZero` returns true (`coeffs[0] == 0`). -/
theorem isZero_true_on_nonempty_support :
    Polynomial.isZero ⟨[0], [oneV 1], 0⟩ = true ∧
      (⟨[0], [oneV 1], 0⟩ : Polynomial).terms ≠ [] := by
  constructor
  · decide
  · decide

/-- Claim C2 (amended): for a polynomial whose coefficient and term
arrays are parallel and whose leading coefficient is non-zero whenever
the support is nonempty (the canonical-form invariant), `isZero` returns
true iff the support is empty. -/
theorem isZero_iff_empty_support (P : Polynomial)
    (hlen : P.coeffs.length = P.terms.length)
    (hinv : P.coeffs ≠ [] → P.coeffs.getD 0 0 ≠ 0) :
    P.isZero = true ↔ P.terms = [] := by
  unfold Polynomial.isZero
  cases hc : P.coeffs with
  | nil =>
    have ht : P.terms = [] := by
      rw [← List.length_eq_zero]
      rw [← hlen, hc]
      rfl
    simp [ht]
  | cons c cs =>
    have hne : P.coeffs.getD 0 0 ≠ 0 := hinv (by rw [hc]; simp)
    rw [hc] at hne
    simp only [List.getD_cons_zero] at hne
    have ht : P.terms ≠ [] := by
      intro h0
      rw [← List.length_eq_zero, ← hlen, hc] at h0
      simp at h0
    simp [hc, hne, ht]

/-- Witness for claim C2 at a concrete input. -/
theorem isZero_iff_empty_support_witness :
    ((⟨[2], [[1]], 0⟩ : Polynomial).coeffs.length
        = (⟨[2], [[1]], 0⟩ : Polynomial).terms.length) ∧
      (Polynomial.isZero ⟨[2], [[1]], 0⟩ = true ↔
        (⟨[2], [[1]], 0⟩ : Polynomial).terms = []) :=
  ⟨by decide, isZero_iff_empty_support ⟨[2], [[1]], 0⟩ (by decide) (by decide)⟩

/-- A conditional push-back loop is the map of the filtered list. -/
theorem foldl_push_filter {α β : Type} (p : α → Prop) [DecidablePred p]
    (g : α → β) (l : List α) :
    ∀ acc : List β,
      l.foldl (fun acc i => if p i then acc ++ [g i] else acc) acc
        = acc ++ (l.filter fun i => decide (p i)).map g := by
  induction l with
  | nil => intro acc; simp
  | cons a l ih =>
    intro acc
    by_cases hp : p a
    · simp [hp, ih, List.filter_cons]
    · simp [hp, ih, List.filter_cons]

/-- Counting the positions of a list that satisfy a positivity test
through `getD` equals counting its elements directly. -/
theorem filter_range_getD_length (t : List Nat) :
    ((List.range t.length).filter fun i => decide (0 < t.getD i 0)).length
      = t.countP fun e => decide (0 < e) := by
  induction t with
  | nil => simp
  | cons a l ih =>
    rw [List.length_cons, List.range_succ_eq_map, List.filter_cons]
    simp only [List.getD_cons_zero]
    rw [List.filter_map]
    have hcomp : ((fun i => decide (0 < (a :: l).getD i 0)) ∘ Nat.succ)
        = fun i => decide (0 < l.getD i 0) := by
      funext i
      simp [List.getD_cons_succ]
    rw [hcomp, List.countP_cons]
    by_cases ha : 0 < a
    · rw [if_pos (by simpa using ha), if_pos (by simpa using ha)]
      simp only [List.length_cons, List.length_map]
      omega
    · rw [if_neg (by simpa using ha), if_neg (by simpa using ha)]
      simp only [List.length_map]
      omega

/-- Claim C10: `divAllX` returns exactly one quotient `divX i` for each
variable index `i` with a strictly positive exponent, in increasing
order of `i`; its length is the number of strictly positive exponents,
and it is empty exactly when the term is the one (all exponents zero). -/
theorem divAllX_characterization (t : TermV) :
    divAllX t
        = ((List.range t.length).filter fun i => decide (0 < t.getD i 0)).map (divX t) ∧
      (divAllX t).length = (t.countP fun e => decide (0 < e)) ∧
      (divAllX t = [] ↔ t = List.replicate t.length 0) := by
  have h1 : divAllX t
      = ((List.range t.length).filter fun i => decide (0 < t.getD i 0)).map (divX t) := by
    unfold divAllX
    simpa using foldl_push_filter (fun i => 0 < t.getD i 0) (divX t) (List.range t.length) []
  have h2 : (divAllX t).length = (t.countP fun e => decide (0 < e)) := by
    rw [h1, List.length_map, filter_range_getD_length]
  refine ⟨h1, h2, ?_⟩
  rw [← List.length_eq_zero, h2, List.countP_eq_zero, List.eq_replicate_iff]
  constructor
  · intro h
    refine ⟨rfl, fun b hb => ?_⟩
    have := h b hb
    simp only [decide_eq_true_eq] at this
    omega
  · intro h b hb
    have := h.2 b hb
    simp [this]

/-- Claim C7: `Polynomial::operator==` returns true iff the supports are
identical sequences: same length and, at every position, the same
coefficient and the same term handle (stated for polynomials whose
coefficient and term arrays are parallel, as every constructor
guarantees). -/
theorem operatorEq_iff_identical_support (P Q : Polynomial)
    (hP : P.coeffs.length = P.terms.length)
    (hQ : Q.coeffs.length = Q.terms.length) :
    P.beq Q = true ↔ P.coeffs = Q.coeffs ∧ P.terms = Q.terms := by
  unfold Polynomial.beq
  by_cases hlen : P.coeffs.length = Q.coeffs.length
  · rw [if_neg (by simp [hlen])]
    rw [List.all_eq_true]
    have htlen : P.terms.length = Q.terms.length := by omega
    constructor
    · intro h
      have hterm : ∀ i < P.terms.length, P.terms.getD i [] = Q.terms.getD i [] := by
        intro i hi
        have := h i (List.mem_range.mpr hi)
        simp only [Bool.and_eq_true, beq_iff_eq] at this
        exact this.1
      have hcoef : ∀ i < P.coeffs.length, P.coeffs.getD i 0 = Q.coeffs.getD i 0 := by
        intro i hi
        have := h i (List.mem_range.mpr (by omega))
        simp only [Bool.and_eq_true, beq_iff_eq] at this
        exact this.2
      exact ⟨(getD_ext_iff 0 P.coeffs Q.coeffs hlen).mp hcoef,
        (getD_ext_iff [] P.terms Q.terms htlen).mp hterm⟩
    · rintro ⟨hc, ht⟩ i _
      simp [hc, ht]
  · rw [if_pos hlen]
    simp only [Bool.false_eq_true, false_iff, not_and]
    intro hc _
    exact hlen (by rw [hc])

/-- Witness for claim C7 at a concrete input. -/
theorem operatorEq_iff_identical_support_witness :
    ((⟨[1, 2], [[1], [2]], 0⟩ : Polynomial).coeffs.length
        = (⟨[1, 2], [[1], [2]], 0⟩ : Polynomial).terms.length) ∧
      (Polynomial.beq ⟨[1, 2], [[1], [2]], 0⟩ ⟨[1, 2], [[1], [2]], 0⟩ = true ↔
        (⟨[1, 2], [[1], [2]], 0⟩ : Polynomial).coeffs = [1, 2] ∧
          (⟨[1, 2], [[1], [2]], 0⟩ : Polynomial).terms = [[1], [2]]) :=
  ⟨by decide, operatorEq_iff_identical_support ⟨[1, 2], [[1], [2]], 0⟩
    ⟨[1, 2], [[1], [2]], 0⟩ (by decide) (by decide)⟩

/-- Claim C8: `Polynomial::hash` folds with XOR, so its value is
invariant under any permutation of the support. -/
theorem hash_perm_invariant (P Q : Polynomial)
    (h : (P.coeffs.zip P.terms).Perm (Q.coeffs.zip Q.terms)) :
    P.hash = Q.hash := by
  unfold Polynomial.hash
  refine h.foldl_eq' (fun x _ y _ z => ?_) 0
  show (z ^^^ monomialHash x.1 x.2) ^^^ monomialHash y.1 y.2
      = (z ^^^ monomialHash y.1 y.2) ^^^ monomialHash x.1 x.2
  rw [Nat.xor_assoc, Nat.xor_assoc, Nat.xor_comm (monomialHash x.1 x.2)]

/-- Witness for claim C8: swapping the two monomials leaves the hash
unchanged. -/
theorem hash_perm_invariant_witness :
    Polynomial.hash ⟨[1, 2], [[1], [2]], 0⟩ = Polynomial.hash ⟨[2, 1], [[2], [1]], 0⟩ :=
  hash_perm_invariant ⟨[1, 2], [[1], [2]], 0⟩ ⟨[2, 1], [[2], [1]], 0⟩
    (List.Perm.swap (2, [2]) (1, [1]) [])

/-- Claim C9: `Term::equal` is structural equality of the exponent
vectors while `Term::operator==` is instance-pointer identity; pointer
identity implies `equal`, and `equal` can hold for two distinct
instances carrying the same exponent vector. -/
theorem equal_vs_pointer_identity (N : Nat) (a b : TermHandle)
    (ha : a.indets.length = N) (hb : b.indets.length = N)
    (halias : a.ptr = b.ptr → a.indets = b.indets) :
    (termEqual N a b = true ↔ a.indets = b.indets) ∧
      (termPtrEq a b = true → termEqual N a b = true) ∧
      (∃ x y : TermHandle, termPtrEq x y = false ∧ termEqual N x y = true) := by
  refine ⟨?_, ?_, ?_⟩
  · unfold termEqual
    by_cases hp : a.ptr = b.ptr
    · simp only [hp, beq_self_eq_true, if_true, true_iff]
      exact halias hp
    · have hpf : (a.ptr == b.ptr) = false := by simp [hp]
      rw [hpf]
      simp only [Bool.false_eq_true, if_false]
      unfold termInstEqual
      rw [List.all_eq_true]
      constructor
      · intro h
        apply (getD_ext_iff 0 a.indets b.indets (by omega)).mp
        intro i hi
        have := h i (List.mem_range.mpr (by omega))
        simpa using this
      · intro h i _
        simp [h]
  · intro hp
    unfold termPtrEq at hp
    unfold termEqual
    rw [hp]
    rfl
  · refine ⟨⟨0, oneV N⟩, ⟨1, oneV N⟩, rfl, ?_⟩
    unfold termEqual termInstEqual
    simp

/-- Witness for claim C9 at a concrete input. -/
theorem equal_vs_pointer_identity_witness :
    ((⟨0, [1, 2]⟩ : TermHandle).indets.length = 2) ∧
      ((termEqual 2 ⟨0, [1, 2]⟩ ⟨1, [1, 2]⟩ = true ↔
          (⟨0, [1, 2]⟩ : TermHandle).indets = (⟨1, [1, 2]⟩ : TermHandle).indets) ∧
        (termPtrEq ⟨0, [1, 2]⟩ ⟨1, [1, 2]⟩ = true →
          termEqual 2 ⟨0, [1, 2]⟩ ⟨1, [1, 2]⟩ = true) ∧
        (∃ x y : TermHandle, termPtrEq x y = false ∧ termEqual 2 x y = true)) :=
  ⟨by decide, equal_vs_pointer_identity 2 ⟨0, [1, 2]⟩ ⟨1, [1, 2]⟩
    (by decide) (by decide) (by decide)⟩

/-- A fold that at each step keeps its accumulator or switches to the
current element yields an element of the list, unless it still holds the
initial value. -/
theorem foldl_choice_mem {α : Type} (g : Option α → α → Option α)
    (hg : ∀ b e x, g b e = some x → x = e ∨ b = some x) :
    ∀ (l : List α) (init : Option α) (x : α),
      l.foldl g init = some x → x ∈ l ∨ init = some x := by
  intro l
  induction l with
  | nil =>
    intro init x h
    exact Or.inr h
  | cons a l ih =>
    intro init x h
    rcases ih (g init a) x h with hx | hi
    · exact Or.inl (List.mem_cons_of_mem a hx)
    · rcases hg init a x hi with he | hb
      · exact Or.inl (he ▸ List.mem_cons_self a l)
      · exact Or.inr hb

/-- The entry selected by `searchBest` is a stored entry whose key
divides the searched term. -/
theorem searchBest_mem (t : TermV) (tbl : List (TermV × Polynomial))
    (e : TermV × Polynomial) (h : searchBest t tbl = some e) :
    e ∈ tbl ∧ divisibleBy t e.1 = true := by
  unfold searchBest at h
  have hg : ∀ (b : Option (TermV × Polynomial)) x y,
      searchStep t b x = some y → y = x ∨ b = some y := by
    intro b x y hxy
    cases b with
    | none =>
      exact Or.inl (Option.some.inj hxy).symm
    | some bb =>
      simp only [searchStep] at hxy
      split at hxy
      · exact Or.inl (Option.some.inj hxy).symm
      · exact Or.inr hxy
  rcases foldl_choice_mem (searchStep t) hg _ none e h with hmem | hinit
  · exact List.mem_filter.mp hmem
  · simp at hinit

/-- If no stored key divides the searched term, `searchBest` finds
nothing. -/
theorem searchBest_none (t : TermV) (tbl : List (TermV × Polynomial))
    (hall : ∀ e ∈ tbl, divisibleBy t e.1 = false) :
    searchBest t tbl = none := by
  unfold searchBest
  have hnil : tbl.filter (fun e => divisibleBy t e.1) = [] := by
    rw [List.filter_eq_nil_iff]
    intro a ha
    simp [hall a ha]
  rw [hnil]
  rfl

/-- For terms of a common monoid, the short-circuiting `mul` agrees with
plain componentwise addition. -/
theorem mulT_eq_mulV (a b : TermV) (h : a.length = b.length) :
    mulT a b = mulV a b := by
  unfold mulT
  split
  next hb =>
    have hz : ∀ e ∈ b, e = 0 := by
      simp only [termDeg] at hb
      exact List.sum_eq_zero_iff.mp hb
    exact (zipWith_add_zero a b h hz).symm
  next => rfl

/-- Componentwise: `(s + u) + (t - u) = s + t` when `u` divides `t`. -/
theorem mulV_mulV_divT (s : List Nat) :
    ∀ t u : List Nat, s.length = t.length → u.length = t.length →
      divisibleBy t u = true → mulV (mulV s u) (divT t u) = mulV s t := by
  induction s with
  | nil =>
    intro t u _ _ _
    simp [mulV]
  | cons s0 s ih =>
    intro t u hs hu hdvd
    cases t with
    | nil => simp at hs
    | cons t0 t =>
      cases u with
      | nil => simp at hu
      | cons u0 u =>
        have hd : u0 ≤ t0 ∧ divisibleBy t u = true := by
          simp only [divisibleBy, List.zip_cons_cons, List.all_cons,
            Bool.and_eq_true, decide_eq_true_eq] at hdvd
          exact ⟨hdvd.1, hdvd.2⟩
        simp only [mulV, divT, List.zipWith_cons_cons, List.cons.injEq]
        refine ⟨by omega, ?_⟩
        exact ih t u (by simpa using hs) (by simpa using hu) hd.2

/-- Multiplying by a divisor entry's key and then by the quotient is the
same as multiplying by the original term. -/
theorem mulT_mulT_div (s t u : TermV) (hs : s.length = t.length)
    (hu : u.length = t.length) (hdvd : divisibleBy t u = true) :
    mulT (mulT s u) (divT t u) = mulT s t := by
  rw [mulT_eq_mulV s u (by omega), mulT_eq_mulV s t hs,
    mulT_eq_mulV (mulV s u) (divT t u)
      (by simp only [mulV, divT, List.length_zipWith]; omega)]
  exact mulV_mulV_divT s t u hs hu hdvd

/-- Claim C3: if every entry `(key, p)` stored for `f` satisfies the
table invariant that `p` equals `key · f` up to a non-zero scalar of
`Z/pZ`, then after `search` rewrites `(t, f)` to `(t2, f2)` the product
`t2 · f2` equals `t · f` up to a non-zero scalar; and if no stored key
divides `t`, both arguments are left unchanged. -/
theorem search_product_invariant (p : Nat) (t : TermV) (f : Polynomial)
    (tbl : List (TermV × Polynomial)) (hp : 2 ≤ p)
    (hft : ∀ s ∈ f.terms, s.length = t.length)
    (hcoh : ∀ e ∈ tbl, e.1.length = t.length ∧ scalarEquiv p e.2 (f.mulTerm e.1)) :
    scalarEquiv p (((search t f tbl).2).mulTerm (search t f tbl).1) (f.mulTerm t) ∧
      ((∀ e ∈ tbl, divisibleBy t e.1 = false) → search t f tbl = (t, f)) := by
  constructor
  · cases hsb : searchBest t tbl with
    | none =>
      simp only [search, hsb]
      unfold scalarEquiv
      refine ⟨1, ?_, rfl, rfl, ?_⟩
      · intro hdvd
        have h1 : (p : Int) ≤ 1 := Int.le_of_dvd one_pos hdvd
        omega
      · intro i _
        rw [one_mul]
    | some e =>
      obtain ⟨hmem, hdvd⟩ := searchBest_mem t tbl e hsb
      have hlen1 := (hcoh e hmem).1
      have hequiv := (hcoh e hmem).2
      unfold scalarEquiv at hequiv
      obtain ⟨c, hc, hterms, hclen, hcpt⟩ := hequiv
      simp only [search, hsb]
      unfold scalarEquiv
      refine ⟨c, hc, ?_, ?_, ?_⟩
      · show (e.2.mulTerm (divT t e.1)).terms = (f.mulTerm t).terms
        simp only [Polynomial.mulTerm] at hterms ⊢
        rw [hterms, List.map_map]
        apply List.map_congr_left
        intro s hs
        exact mulT_mulT_div s t e.1 (hft s hs) hlen1 hdvd
      · simpa [Polynomial.mulTerm] using hclen
      · intro i hi
        simp only [Polynomial.mulTerm] at hi ⊢
        exact hcpt i hi
  · intro hall
    rw [search, searchBest_none t tbl hall]

/-- Witness for claim C3 at a concrete input: table entry
`(x, x * (x^2))` for `f = x^2`, searched with `t = x^2`. -/
theorem search_product_invariant_witness :
    (scalarEquiv 3
        (((search [2] ⟨[1], [[2]], 0⟩ [([1], ⟨[1], [[3]], 0⟩)]).2).mulTerm
          (search [2] ⟨[1], [[2]], 0⟩ [([1], ⟨[1], [[3]], 0⟩)]).1)
        ((⟨[1], [[2]], 0⟩ : Polynomial).mulTerm [2])) ∧
      ((∀ e ∈ [(([1] : TermV), (⟨[1], [[3]], 0⟩ : Polynomial))],
          divisibleBy [2] e.1 = false) →
        search [2] ⟨[1], [[2]], 0⟩ [([1], ⟨[1], [[3]], 0⟩)] = ([2], ⟨[1], [[2]], 0⟩)) :=
  search_product_invariant 3 [2] ⟨[1], [[2]], 0⟩ [([1], ⟨[1], [[3]], 0⟩)]
    (by omega)
    (by intro s hs; simp at hs; simp [hs])
    (by
      intro e he
      simp only [List.mem_singleton] at he
      subst he
      refine ⟨rfl, 1, by decide, by decide, by decide, ?_⟩
      intro i hi
      have h0 : i = 0 := by simp at hi; omega
      subst h0
      decide)

/-- Fermat inversion on canonical representatives: for a prime `p` and
`0 < x < p`, multiplying `x` by `x ^ (p - 2) mod p` gives `1 mod p`. -/
theorem fermat_emod (p : Nat) (hp : p.Prime) (x : Int) (hx0 : 0 < x)
    (hxp : x < (p : Int)) :
    (x * (x ^ (p - 2) % (p : Int))) % (p : Int) = 1 := by
  haveI := Fact.mk hp
  have hp2 : 2 ≤ p := hp.two_le
  have hxz : (x : ZMod p) ≠ 0 := by
    intro h0
    have hdvd : ((p : Nat) : Int) ∣ x := (ZMod.intCast_zmod_eq_zero_iff_dvd x p).mp h0
    have := Int.le_of_dvd hx0 hdvd
    omega
  have hferm : (x : ZMod p) ^ (p - 1) = 1 := ZMod.pow_card_sub_one_eq_one hxz
  have hmod : x ^ (p - 1) % (p : Int) = 1 % (p : Int) := by
    have : ((x ^ (p - 1) : Int) : ZMod p) = ((1 : Int) : ZMod p) := by
      push_cast
      exact hferm
    exact (ZMod.intCast_eq_intCast_iff _ _ _).mp this
  have hexp : p - 1 = (p - 2) + 1 := by omega
  calc (x * (x ^ (p - 2) % (p : Int))) % (p : Int)
      = (x % (p : Int) * (x ^ (p - 2) % (p : Int) % (p : Int))) % (p : Int) := by
        rw [Int.mul_emod]
    _ = (x % (p : Int) * (x ^ (p - 2) % (p : Int))) % (p : Int) := by
        rw [Int.emod_emod_of_dvd _ dvd_rfl]
    _ = (x * x ^ (p - 2)) % (p : Int) := by
        rw [← Int.mul_emod]
    _ = x ^ (p - 1) % (p : Int) := by
        rw [hexp, pow_succ']
    _ = 1 % (p : Int) := hmod
    _ = 1 := Int.emod_eq_of_lt (by omega) (by omega)

/-- Claim C6: after `bringIn(F)` followed by `normalize(F)` over the
prime field `Z/pZ`, the polynomial is zero or its leading coefficient
is `1`. -/
theorem bringIn_normalize_LC_one (p : Nat) (P : Polynomial) (hp : p.Prime) :
    ((P.bringIn p).normalize p).isZero = true ∨ ((P.bringIn p).normalize p).LC = 1 := by
  by_cases hz : (P.bringIn p).isZero
  · left
    unfold Polynomial.normalize
    rw [if_pos hz]
    exact hz
  · right
    have hcz : ¬(P.bringIn p).coeffs.length < 1 ∧ (P.bringIn p).coeffs.getD 0 0 ≠ 0 := by
      have := hz
      unfold Polynomial.isZero at this
      simpa [not_or] using this
    obtain ⟨hlen, hne⟩ := hcz
    cases hcoe : P.coeffs with
    | nil =>
      exfalso
      apply hlen
      simp [Polynomial.bringIn, hcoe]
    | cons c cs =>
      have hbc : (P.bringIn p).coeffs = (c % (p : Int)) :: cs.map (fun y => y % (p : Int)) := by
        simp [Polynomial.bringIn, hcoe]
      have hLC : (P.bringIn p).LC = c % (p : Int) := by
        unfold Polynomial.LC
        rw [hbc]
        simp
      have hppos : 0 < p := hp.pos
      have hx0 : (0 : Int) ≤ c % (p : Int) := Int.emod_nonneg c (by omega)
      have hxlt : c % (p : Int) < (p : Int) := Int.emod_lt_of_pos c (by omega)
      have hxne : c % (p : Int) ≠ 0 := by
        intro h0
        apply hne
        rw [hbc]
        simpa using h0
      have hres : ((P.bringIn p).normalize p).LC
          = ((c % (p : Int)) * fieldInv p (c % (p : Int))) % (p : Int) := by
        unfold Polynomial.normalize
        rw [if_neg hz]
        unfold Polynomial.LC
        rw [hbc]
        simp
      rw [hres, fieldInv]
      exact fermat_emod p hp (c % (p : Int)) (by omega) hxlt

/-- Witness for claim C6 at a concrete input. -/
theorem bringIn_normalize_LC_one_witness :
    (((⟨[2], [[1]], 0⟩ : Polynomial).bringIn 3).normalize 3).isZero = true ∨
      (((⟨[2], [[1]], 0⟩ : Polynomial).bringIn 3).normalize 3).LC = 1 :=
  bringIn_normalize_LC_one 3 ⟨[2], [[1]], 0⟩ (by norm_num)

end parallelGBC
